import Mathlib

/-!
Shallow embedding of the frame-filtering module of vip/var/filters.py:
the spectral transforms fft and ifft, the high-pass dispatcher
frame_filter_highpass, the 2-d Gaussian filter frame_filter_gaussian2d,
the wavelet denoiser wavelet_denoise and the Gaussian kernel generator
gaussian_kernel.  Machine floats are modelled by real numbers, numpy
arrays by a shape list together with row-major flat data, and external
library routines (astropy convolution, scipy gaussian filter, photutils
aperture photometry, pywt transforms) by explicit function parameters.
Python exceptions are modelled as error values carrying the exception
kind and message.
-/

/-- Kind of a Python exception raised by the module: the source raises
TypeError for shape and mode validation, ValueError for the threshold
mode, and an unbound-local failure occurs when the Laplacian kernel
variable is never assigned. -/
inductive PyErrKind where
  | typeError
  | valueError
  | unboundLocal
deriving DecidableEq

/-- A Python exception: its kind together with its message. -/
structure PyErr where
  kind : PyErrKind
  msg : String
deriving DecidableEq

/-- The TypeError raised when the input array is not a 2-d frame. -/
def shapeErr : PyErr := ⟨PyErrKind.typeError, "Input array is not a frame or 2d array"⟩

/-- The TypeError raised when a mode string is not recognized. -/
def modeErr : PyErr := ⟨PyErrKind.typeError, "Mode not recognized"⟩

/-- The ValueError raised when the wavelet threshold mode is not recognized. -/
def thrErr : PyErr := ⟨PyErrKind.valueError, "Threshold mode not recognized"⟩

/-- The unbound-local failure hit when the variable kernel was never assigned. -/
def unboundLocalErr : PyErr := ⟨PyErrKind.unboundLocal, "local variable kernel referenced before assignment"⟩

/-- A numpy ndarray: its shape and its row-major flattened data. -/
structure NDArray where
  shape : List ℕ
  data : List ℝ

/-- Elementwise map over an ndarray, keeping the shape. -/
def NDArray.map (f : ℝ → ℝ) (a : NDArray) : NDArray :=
  ⟨a.shape, a.data.map f⟩

/-- Elementwise subtraction of two ndarrays of equal shape. -/
def ndSub (a b : NDArray) : NDArray :=
  ⟨a.shape, List.zipWith (fun x y => x - y) a.data b.data⟩

/-- View a 2-d matrix as an ndarray of shape [m, n] in row-major order. -/
def ofMatrix {m n : ℕ} (M : Matrix (Fin m) (Fin n) ℝ) : NDArray :=
  ⟨[m, n], (List.finRange (m * n)).map fun t => M t.divNat t.modNat⟩

/-- Read a 2-d ndarray back as a matrix (row-major indexing). -/
def toMat (m n : ℕ) (a : NDArray) : Matrix (Fin m) (Fin n) ℝ :=
  fun i j => a.data.getD (i.val * n + j.val) 0

/-- Maximum entry of a list of reals, as numpy max on a nonempty array. -/
def listMax : List ℝ → ℝ
  | [] => 0
  | x :: xs => xs.foldl max x

/-- Primitive N-th root of unity used by the discrete Fourier transform. -/
noncomputable def zeta (N : ℕ) : ℂ := Complex.exp (2 * Real.pi * Complex.I / N)

/-- One-dimensional discrete Fourier transform, numpy forward convention. -/
noncomputable def dft1 {N : ℕ} (v : Fin N → ℂ) : Fin N → ℂ :=
  fun k => ∑ a : Fin N, v a * zeta N ^ (-((k.val : ℤ) * (a.val : ℤ)))

/-- One-dimensional inverse discrete Fourier transform, numpy convention. -/
noncomputable def idft1 {N : ℕ} (v : Fin N → ℂ) : Fin N → ℂ :=
  fun a => (N : ℂ)⁻¹ * ∑ k : Fin N, v k * zeta N ^ ((k.val : ℤ) * (a.val : ℤ))

/-- Forward transform of every row of a matrix. -/
noncomputable def dftRows {m n : ℕ} (x : Matrix (Fin m) (Fin n) ℂ) : Matrix (Fin m) (Fin n) ℂ :=
  fun a l => dft1 (x a) l

/-- Forward transform of every column of a matrix. -/
noncomputable def dftCols {m n : ℕ} (x : Matrix (Fin m) (Fin n) ℂ) : Matrix (Fin m) (Fin n) ℂ :=
  fun k l => dft1 (fun a => x a l) k

/-- Inverse transform of every column of a matrix. -/
noncomputable def idftCols {m n : ℕ} (x : Matrix (Fin m) (Fin n) ℂ) : Matrix (Fin m) (Fin n) ℂ :=
  fun a l => idft1 (fun k => x k l) a

/-- Inverse transform of every row of a matrix. -/
noncomputable def idftRows {m n : ℕ} (x : Matrix (Fin m) (Fin n) ℂ) : Matrix (Fin m) (Fin n) ℂ :=
  fun a b => idft1 (x a) b

/-- Two-dimensional discrete Fourier transform, as numpy fft2. -/
noncomputable def dft2 {m n : ℕ} (x : Matrix (Fin m) (Fin n) ℂ) : Matrix (Fin m) (Fin n) ℂ :=
  dftCols (dftRows x)

/-- Two-dimensional inverse discrete Fourier transform, as numpy ifft2. -/
noncomputable def idft2 {m n : ℕ} (x : Matrix (Fin m) (Fin n) ℂ) : Matrix (Fin m) (Fin n) ℂ :=
  idftRows (idftCols x)

/-- Index rolled forward by s positions modulo the axis length. -/
def rollIdx (s : ℕ) {N : ℕ} (i : Fin N) : Fin N :=
  ⟨(i.val + s) % N, Nat.mod_lt _ i.pos⟩

/-- numpy fftshift on both axes: entry i reads position i - N/2 modulo N. -/
def fftshift2 {m n : ℕ} (M : Matrix (Fin m) (Fin n) ℂ) : Matrix (Fin m) (Fin n) ℂ :=
  fun i j => M (rollIdx (m - m / 2) i) (rollIdx (n - n / 2) j)

/-- numpy ifftshift on both axes: entry i reads position i + N/2 modulo N. -/
def ifftshift2 {m n : ℕ} (M : Matrix (Fin m) (Fin n) ℂ) : Matrix (Fin m) (Fin n) ℂ :=
  fun i j => M (rollIdx (m / 2) i) (rollIdx (n / 2) j)

/-- Real matrix viewed as a complex matrix. -/
noncomputable def ofRealM {m n : ℕ} (x : Matrix (Fin m) (Fin n) ℝ) : Matrix (Fin m) (Fin n) ℂ :=
  fun i j => Complex.ofReal (x i j)

/-- The forward transform of the source: fft2 followed by fftshift. -/
noncomputable def fft {m n : ℕ} (array : Matrix (Fin m) (Fin n) ℂ) : Matrix (Fin m) (Fin n) ℂ :=
  fftshift2 (dft2 array)

/-- The inverse transform of the source: ifftshift, then ifft2, then the
entrywise absolute value of the complex result. -/
noncomputable def ifft {m n : ℕ} (array : Matrix (Fin m) (Fin n) ℂ) : Matrix (Fin m) (Fin n) ℝ :=
  fun i j => Complex.abs (idft2 (ifftshift2 array) i j)

/-- Clamp an integer index into the valid range of an axis, the scipy
nearest boundary mode. -/
def clampToFin {N : ℕ} (hN : 0 < N) (z : ℤ) : Fin N :=
  ⟨(min (max z 0) ((N : ℤ) - 1)).toNat, by
    have h1 : min (max z 0) ((N : ℤ) - 1) ≤ (N : ℤ) - 1 := min_le_right _ _
    omega⟩

/-- The square neighborhood of a pixel used by the scipy median filter:
offsets k - size / 2 for k below size on each axis, indices clamped to
the frame (nearest boundary handling). -/
def windowList {m n : ℕ} (M : Matrix (Fin m) (Fin n) ℝ) (size : ℕ) (i : Fin m) (j : Fin n) :
    List ℝ :=
  ((List.range size).product (List.range size)).map fun p =>
    M (clampToFin i.pos ((i.val : ℤ) + p.1 - (size / 2 : ℕ)))
      (clampToFin j.pos ((j.val : ℤ) + p.2 - (size / 2 : ℕ)))

/-- Median of a list of reals: middle element of the sorted list. -/
noncomputable def medianList (l : List ℝ) : ℝ :=
  (l.mergeSort fun a b => decide (a ≤ b)).getD (l.length / 2) 0

/-- Modelled from the spec: the external scipy median filter with a
square neighborhood of the given size and nearest edge extension. -/
noncomputable def medianFilterM {m n : ℕ} (M : Matrix (Fin m) (Fin n) ℝ) (size : ℕ) :
    Matrix (Fin m) (Fin n) ℝ :=
  fun i j => medianList (windowList M size i j)

/-- External library calls performed by an operation, in order. -/
inductive LibCall where
  | convolve_fft
  | median_filter
  | gaussian_filter
  | gaussian2DKernel
  | fft
  | ifft
  | wavedec2
  | thresholding
  | waverec2
deriving DecidableEq

/-- External numeric collaborators of the module, opaque to this
development: astropy fft convolution, the scipy separable Gaussian
filter (array, sigma, derivative order, boundary mode), the astropy 2-d
Gaussian kernel builder and the photutils aperture photometry (array,
aperture center, aperture radius). -/
structure Externals where
  convolve_fft : NDArray → NDArray → NDArray
  gaussian_filter : NDArray → ℝ → ℕ → String → NDArray
  gaussian2DKernel : ℝ → NDArray
  aperture_photometry : NDArray → ℝ × ℝ → ℝ → ℝ

/-- The fixed 3x3 Laplacian high-pass kernel of the source. -/
def kernel3 : NDArray :=
  ⟨[3, 3], [-1, -1, -1, -1, 8, -1, -1, -1, -1]⟩

/-- The fixed 5x5 Laplacian high-pass kernel of the source. -/
def kernel5 : NDArray :=
  ⟨[5, 5], [-1, -1, -1, -1, -1,
            -1, 1, 2, 1, -1,
            -1, 2, 4, 2, -1,
            -1, 1, 2, 1, -1,
            -1, -1, -1, -1, -1]⟩

/-- Modelled from the astropy constant: the FWHM-to-sigma conversion
factor 1 / (2 * sqrt (2 * log 2)). -/
noncomputable def gaussian_fwhm_to_sigma : ℝ := 1 / (2 * Real.sqrt (2 * Real.log 2))

/-- The 2-d Gaussian filter of the source: validates the frame shape,
then dispatches on the mode string, delegating the numeric work to the
external collaborators.  Returns the external calls made together with
the result or the raised exception. -/
noncomputable def frame_filter_gaussian2d (ext : Externals) (array : NDArray) (size_fwhm : ℝ)
    (mode : String) : List LibCall × Except PyErr NDArray :=
  match array.shape with
  | [_, _] =>
    if mode = "conv" then
      ([LibCall.gaussian_filter],
        Except.ok (ext.gaussian_filter array (size_fwhm * gaussian_fwhm_to_sigma) 0 ("nearest")))
    else if mode = "convfft" then
      ([LibCall.gaussian2DKernel, LibCall.convolve_fft],
        Except.ok (ext.convolve_fft array (ext.gaussian2DKernel (size_fwhm * gaussian_fwhm_to_sigma))))
    else ([], Except.error modeErr)
  | _ => ([], Except.error shapeErr)

/-- The high-pass dispatcher of the source: validates the frame shape
first, then dispatches on the mode string among kernel-conv,
median-subt, gauss-subt and fourier-butter; any other mode raises the
mode TypeError.  In kernel-conv mode a kernel size other than 3 or 5
leaves the kernel variable unassigned.  The fourier-butter branch builds
the n-th order Butterworth transfer function with cutin frequency f over
the grid linspace(-0.5, 0.5, axis) * axis / pxd, with the fixed source
constants f = 0.5, pxd = 2 and n = 100, multiplies it into the centered
spectrum and inverts back. -/
noncomputable def frame_filter_highpass (ext : Externals) (array : NDArray) (mode : String)
    (median_size : ℕ) (kernel_size : ℕ) (fwhm_size : ℝ) : List LibCall × Except PyErr NDArray :=
  match array.shape with
  | [m, n] =>
    if mode = "kernel-conv" then
      if kernel_size = 3 then ([LibCall.convolve_fft], Except.ok (ext.convolve_fft array kernel3))
      else if kernel_size = 5 then
        ([LibCall.convolve_fft], Except.ok (ext.convolve_fft array kernel5))
      else ([], Except.error unboundLocalErr)
    else if mode = "median-subt" then
      let M := toMat m n array
      ([LibCall.median_filter], Except.ok (ofMatrix (M - medianFilterM M median_size)))
    else if mode = "gauss-subt" then
      let tr := frame_filter_gaussian2d ext array fwhm_size ("conv")
      match tr.2 with
      | Except.ok gaussed => (tr.1, Except.ok (ndSub array gaussed))
      | Except.error e => (tr.1, Except.error e)
    else if mode = "fourier-butter" then
      let M := toMat m n array
      let f : ℝ := 0.5
      let pxd : ℝ := 2
      let nn : ℕ := 100
      let xv : Fin n → ℝ := fun j => (-0.5 + (j.val : ℝ) / ((n : ℝ) - 1)) * n / pxd
      let yv : Fin m → ℝ := fun i => (-0.5 + (i.val : ℝ) / ((m : ℝ) - 1)) * m / pxd
      let radius : Matrix (Fin m) (Fin n) ℝ := fun i j => Real.sqrt (xv j ^ 2 + yv i ^ 2)
      let filt : Matrix (Fin m) (Fin n) ℝ := fun i j => 1 - 1 / (1 + (radius i j / f) ^ (2 * nn))
      let array_fft := fft (ofRealM M)
      let fft_new : Matrix (Fin m) (Fin n) ℂ := fun i j => array_fft i j * Complex.ofReal (filt i j)
      ([LibCall.fft, LibCall.ifft], Except.ok (ofMatrix (ifft fft_new)))
    else ([], Except.error modeErr)
  | _ => ([], Except.error shapeErr)

/-- The external pywt collaborators of the wavelet denoiser, opaque to
this development: the 2-d wavelet decomposition, the hard and soft
coefficient thresholding and the 2-d reconstruction, over an abstract
coefficient type C and wavelet type W. -/
structure WaveletLib (C W : Type) where
  wavedec2 : NDArray → W → ℕ → List C
  hard : C → ℝ → C
  soft : C → ℝ → C
  waverec2 : List C → W → NDArray

/-- The wavelet denoiser of the source: validates the frame shape,
performs the 2-d wavelet decomposition, and only then dispatches on the
threshold mode string, raising the threshold ValueError for an
unrecognized value; otherwise it thresholds every coefficient and
reconstructs.  Returns the external calls made in order together with
the result or the raised exception. -/
def wavelet_denoise {C W : Type} (lib : WaveletLib C W) (array : NDArray) (wavelet : W)
    (threshold : ℝ) (levels : ℕ) (thrmode : String) : List LibCall × Except PyErr NDArray :=
  match array.shape with
  | [_, _] =>
    let WC := lib.wavedec2 array wavelet levels
    if thrmode = "hard" then
      let NWC := WC.map fun x => lib.hard x threshold
      ([LibCall.wavedec2, LibCall.thresholding, LibCall.waverec2],
        Except.ok (lib.waverec2 NWC wavelet))
    else if thrmode = "soft" then
      let NWC := WC.map fun x => lib.soft x threshold
      ([LibCall.wavedec2, LibCall.thresholding, LibCall.waverec2],
        Except.ok (lib.waverec2 NWC wavelet))
    else ([LibCall.wavedec2], Except.error thrErr)
  | _ => ([], Except.error shapeErr)

/-- Modelled from the spec: the frame-center capability of the package
returns the geometric center coordinates of a 2-d array; it is only ever
passed on to the external aperture-photometry capability here. -/
noncomputable def frame_center (a : NDArray) : ℝ × ℝ :=
  match a.shape with
  | [r, c] => (((c : ℝ) - 1) / 2, ((r : ℝ) - 1) / 2)
  | _ => (0, 0)

/-- Resolution of the size_y argument of gaussian_kernel: the source
tests it for truthiness, so both an absent size_y and a zero size_y fall
back to size. -/
def resolveSy (size : ℕ) : Option ℕ → ℕ
  | none => size
  | some k => if k = 0 then size else k

/-- The unnormalized Gaussian kernel of the source on the integer grid
from -size to size by -sy to sy: entry (i, j) holds
exp (-((i - size)^2 / size + (j - sy)^2 / sy)). -/
noncomputable def gaussMat (size sy : ℕ) : Matrix (Fin (2 * size + 1)) (Fin (2 * sy + 1)) ℝ :=
  fun i j =>
    Real.exp (-(((i.val : ℝ) - size) ^ 2 / size + ((j.val : ℝ) - sy) ^ 2 / sy))

/-- The Gaussian kernel generator of the source: builds the grid of
exponential values, divides by the flux returned by the external
aperture photometry on a circular aperture of radius size / 2 at the
frame center, then divides by the maximum so the peak is one. -/
noncomputable def gaussian_kernel (ap : NDArray → ℝ × ℝ → ℝ → ℝ) (size : ℕ)
    (size_y : Option ℕ) : NDArray :=
  let sy := resolveSy size size_y
  let g := ofMatrix (gaussMat size sy)
  let fwhm : ℝ := size
  let flux := ap g (frame_center g) (fwhm / 2)
  let g_norm := NDArray.map (fun v => v / flux) g
  NDArray.map (fun v => v / listMax g_norm.data) g_norm

/-- Trivial instantiation of the external collaborators, used to
evaluate the dispatchers at concrete inputs. -/
def trivExt : Externals :=
  ⟨fun a _ => a, fun a _ _ _ => a, fun _ => ⟨[1, 1], [1]⟩, fun _ _ _ => 1⟩

/-- Trivial instantiation of the pywt collaborators, used to evaluate
the wavelet denoiser at concrete inputs. -/
def libUnit : WaveletLib Unit Unit :=
  ⟨fun _ _ _ => [], fun c _ => c, fun c _ => c, fun _ _ => ⟨[1, 1], [0]⟩⟩

/-- Aperture photometry stub returning unit flux, used to evaluate the
Gaussian kernel generator at concrete inputs. -/
def apOne : NDArray → ℝ × ℝ → ℝ → ℝ := fun _ _ _ => 1

/-- A concrete 1-d input array. -/
def arr1d : NDArray := ⟨[3], [1, 2, 3]⟩

/-- A concrete 2 by 2 frame. -/
def M0 : Matrix (Fin 2) (Fin 2) ℝ := fun _ _ => 2

/-- A concrete 1 by 1 frame with a negative entry. -/
def negFrame : Matrix (Fin 1) (Fin 1) ℝ := fun _ _ => -1

/-- The root of unity zeta N is nonzero. -/
theorem zeta_ne_zero (N : ℕ) : zeta N ≠ 0 := Complex.exp_ne_zero _

/-- The root of unity zeta N has order dividing N. -/
theorem zeta_pow_self {N : ℕ} (hN : N ≠ 0) : zeta N ^ N = 1 :=
  (Complex.isPrimitiveRoot_exp N hN).pow_eq_one

/-- An integer power of zeta N is one exactly when N divides the exponent. -/
theorem zeta_zpow_eq_one_iff {N : ℕ} (hN : N ≠ 0) (d : ℤ) :
    zeta N ^ d = 1 ↔ (N : ℤ) ∣ d :=
  (Complex.isPrimitiveRoot_exp N hN).zpow_eq_one_iff_dvd d

/-- Orthogonality of the discrete characters: summing the powers
zeta N ^ ((a - c) * k) over k gives N when c = a and zero otherwise. -/
theorem zeta_orth {N : ℕ} (a c : Fin N) :
    ∑ k : Fin N, zeta N ^ (((a.val : ℤ) - (c.val : ℤ)) * (k.val : ℤ)) =
      if c = a then (N : ℂ) else 0 := by
  have hN : N ≠ 0 := a.pos.ne'
  by_cases h : c = a
  · subst h
    simp [sub_self, zero_mul, zpow_zero, Finset.sum_const, Finset.card_univ]
  · rw [if_neg h]
    have hvne : a.val ≠ c.val := fun hh => h (Fin.ext hh).symm
    have hdne : ((a.val : ℤ) - (c.val : ℤ)) ≠ 0 := by
      intro hz
      exact hvne (by omega)
    have hw : zeta N ^ ((a.val : ℤ) - (c.val : ℤ)) ≠ 1 := by
      intro h1
      have hdvd := (zeta_zpow_eq_one_iff hN ((a.val : ℤ) - (c.val : ℤ))).mp h1
      have ha := a.isLt
      have hc := c.isLt
      have habs : |(a.val : ℤ) - (c.val : ℤ)| < (N : ℤ) := by
        rw [abs_lt]
        constructor <;> omega
      exact hdne (Int.eq_zero_of_abs_lt_dvd hdvd habs)
    calc ∑ k : Fin N, zeta N ^ (((a.val : ℤ) - (c.val : ℤ)) * (k.val : ℤ))
        = ∑ k : Fin N, (zeta N ^ ((a.val : ℤ) - (c.val : ℤ))) ^ (k.val : ℕ) := by
          refine Finset.sum_congr rfl fun k _ => ?_
          rw [zpow_mul, zpow_natCast]
      _ = ∑ i ∈ Finset.range N, (zeta N ^ ((a.val : ℤ) - (c.val : ℤ))) ^ i :=
          Fin.sum_univ_eq_sum_range _ N
      _ = ((zeta N ^ ((a.val : ℤ) - (c.val : ℤ))) ^ N - 1) /
            (zeta N ^ ((a.val : ℤ) - (c.val : ℤ)) - 1) := geom_sum_eq hw N
      _ = 0 := by
          rw [← zpow_natCast (zeta N ^ ((a.val : ℤ) - (c.val : ℤ))), ← zpow_mul,
            mul_comm, zpow_mul, zpow_natCast, zeta_pow_self hN, one_zpow]
          simp

/-- Inversion of the one-dimensional discrete Fourier transform. -/
theorem idft1_dft1 {N : ℕ} (v : Fin N → ℂ) : idft1 (dft1 v) = v := by
  funext a
  have hN0 : 0 < N := a.pos
  have hNC : (N : ℂ) ≠ 0 := Nat.cast_ne_zero.mpr hN0.ne'
  unfold idft1 dft1
  have step1 : ∀ k : Fin N,
      (∑ c : Fin N, v c * zeta N ^ (-((k.val : ℤ) * (c.val : ℤ)))) *
          zeta N ^ ((k.val : ℤ) * (a.val : ℤ)) =
        ∑ c : Fin N, v c * zeta N ^ (((a.val : ℤ) - (c.val : ℤ)) * (k.val : ℤ)) := by
    intro k
    rw [Finset.sum_mul]
    refine Finset.sum_congr rfl fun c _ => ?_
    rw [mul_assoc, ← zpow_add₀ (zeta_ne_zero N)]
    congr 1
    ring_nf
  rw [Finset.sum_congr rfl fun k _ => step1 k, Finset.sum_comm]
  have step2 : ∀ c : Fin N,
      ∑ k : Fin N, v c * zeta N ^ (((a.val : ℤ) - (c.val : ℤ)) * (k.val : ℤ)) =
        if c = a then v c * (N : ℂ) else 0 := by
    intro c
    rw [← Finset.mul_sum, zeta_orth a c]
    by_cases h : c = a <;> simp [h]
  rw [Finset.sum_congr rfl fun c _ => step2 c, Finset.sum_ite_eq' Finset.univ a]
  simp only [Finset.mem_univ, if_true]
  field_simp

/-- Inversion of the two-dimensional discrete Fourier transform. -/
theorem idft2_dft2 {m n : ℕ} (x : Matrix (Fin m) (Fin n) ℂ) : idft2 (dft2 x) = x := by
  unfold idft2 dft2
  have h1 : idftCols (dftCols (dftRows x)) = dftRows x := by
    funext a l
    unfold idftCols dftCols
    exact congrFun (idft1_dft1 fun a => dftRows x a l) a
  rw [h1]
  funext a b
  unfold idftRows dftRows
  exact congrFun (idft1_dft1 (x a)) b

/-- Rolling forward by N / 2 and then by N - N / 2 is the identity. -/
theorem rollIdx_inv {N : ℕ} (i : Fin N) : rollIdx (N - N / 2) (rollIdx (N / 2) i) = i := by
  apply Fin.ext
  show ((i.val + N / 2) % N + (N - N / 2)) % N = i.val
  rw [Nat.mod_add_mod, add_assoc]
  have h : N / 2 + (N - N / 2) = N := by omega
  rw [h, Nat.add_mod_right, Nat.mod_eq_of_lt i.isLt]

/-- The inverse centering shift undoes the centering shift exactly. -/
theorem ifftshift2_fftshift2 {m n : ℕ} (X : Matrix (Fin m) (Fin n) ℂ) :
    ifftshift2 (fftshift2 X) = X := by
  funext i j
  unfold ifftshift2 fftshift2
  rw [rollIdx_inv, rollIdx_inv]

/-- Round trip of the spectral transforms on a real frame: applying fft
and then ifft returns the entrywise absolute value of the frame. -/
theorem ifft_fft_abs {m n : ℕ} (x : Matrix (Fin m) (Fin n) ℝ) :
    ifft (fft (ofRealM x)) = fun i j => |x i j| := by
  funext i j
  unfold ifft fft
  rw [ifftshift2_fftshift2, idft2_dft2]
  simp [ofRealM, Complex.abs_ofReal]

/-- Row-major access into the flattened data of a matrix view. -/
theorem ofMatrix_data_getD {m n : ℕ} (M : Matrix (Fin m) (Fin n) ℝ) (i : Fin m) (j : Fin n) :
    (ofMatrix M).data.getD (i.val * n + j.val) 0 = M i j := by
  have hi := i.isLt
  have hj := j.isLt
  have hlt : i.val * n + j.val < m * n := by
    calc i.val * n + j.val < i.val * n + n := by omega
      _ = (i.val + 1) * n := by ring
      _ ≤ m * n := Nat.mul_le_mul_right n hi
  have hlen : (ofMatrix M).data.length = m * n := by
    simp [ofMatrix]
  rw [List.getD_eq_getElem _ _ (by rw [hlen]; exact hlt)]
  simp only [ofMatrix, List.getElem_map, List.getElem_finRange]
  congr 1
  · apply Fin.ext
    rw [Fin.coe_divNat]
    simp only [Fin.coe_cast]
    rw [mul_comm i.val n, Nat.mul_add_div j.pos, Nat.div_eq_of_lt hj]
    omega
  · apply Fin.ext
    rw [Fin.coe_modNat]
    simp only [Fin.coe_cast]
    rw [mul_comm i.val n, Nat.mul_add_mod, Nat.mod_eq_of_lt hj]

/-- Reading a matrix view back yields the original matrix. -/
theorem toMat_ofMatrix {m n : ℕ} (M : Matrix (Fin m) (Fin n) ℝ) : toMat m n (ofMatrix M) = M := by
  funext i j
  exact ofMatrix_data_getD M i j

/-- A max fold is at least its initial value. -/
theorem foldl_max_init_le (xs : List ℝ) : ∀ a : ℝ, a ≤ xs.foldl max a := by
  induction xs with
  | nil => intro a; exact le_refl a
  | cons y ys ih =>
    intro a
    exact le_trans (le_max_left a y) (ih (max a y))

/-- A max fold dominates every list element. -/
theorem foldl_max_le_of_mem {xs : List ℝ} {x : ℝ} (h : x ∈ xs) : ∀ a : ℝ, x ≤ xs.foldl max a := by
  induction xs with
  | nil => cases h
  | cons y ys ih =>
    intro a
    rcases List.mem_cons.mp h with rfl | hmem
    · exact le_trans (le_max_right a x) (foldl_max_init_le ys (max a x))
    · exact ih hmem (max a y)

/-- A max fold returns its initial value or some list element. -/
theorem foldl_max_mem_or (xs : List ℝ) : ∀ a : ℝ, xs.foldl max a = a ∨ xs.foldl max a ∈ xs := by
  induction xs with
  | nil => intro a; exact Or.inl rfl
  | cons y ys ih =>
    intro a
    simp only [List.foldl_cons]
    rcases ih (max a y) with h | h
    · rcases le_total a y with hay | hya
      · right
        rw [h, max_eq_right hay]
        exact List.mem_cons_self y ys
      · left
        rw [h, max_eq_left hya]
    · exact Or.inr (List.mem_cons_of_mem y h)

/-- A max fold is bounded by any bound of the initial value and the list. -/
theorem foldl_max_le (xs : List ℝ) : ∀ a c : ℝ, a ≤ c → (∀ x ∈ xs, x ≤ c) → xs.foldl max a ≤ c := by
  induction xs with
  | nil => intro a c ha _; exact ha
  | cons y ys ih =>
    intro a c ha h
    simp only [List.foldl_cons]
    exact ih (max a y) c (max_le ha (h y (List.mem_cons_self y ys)))
      fun x hx => h x (List.mem_cons_of_mem y hx)

/-- Every element of a list is at most its maximum. -/
theorem le_listMax {l : List ℝ} {x : ℝ} (h : x ∈ l) : x ≤ listMax l := by
  match l, h with
  | y :: ys, h =>
    rcases List.mem_cons.mp h with rfl | hmem
    · exact foldl_max_init_le ys x
    · exact foldl_max_le_of_mem hmem y

/-- The maximum of a nonempty list is one of its elements. -/
theorem listMax_mem {l : List ℝ} (h : l ≠ []) : listMax l ∈ l := by
  match l with
  | [] => exact absurd rfl h
  | y :: ys =>
    show ys.foldl max y ∈ y :: ys
    rcases foldl_max_mem_or ys y with h1 | h1
    · rw [h1]
      exact List.mem_cons_self y ys
    · exact List.mem_cons_of_mem y h1

/-- The maximum of a nonempty list is at most any bound of the list. -/
theorem listMax_le {l : List ℝ} {c : ℝ} (h : l ≠ []) (hall : ∀ x ∈ l, x ≤ c) :
    listMax l ≤ c := by
  match l with
  | [] => exact absurd rfl h
  | y :: ys =>
    exact foldl_max_le ys y c (hall y (List.mem_cons_self y ys))
      fun x hx => hall x (List.mem_cons_of_mem y hx)

/-- The median of a nonempty constant list is the constant. -/
theorem medianList_const {l : List ℝ} {c : ℝ} (hne : l ≠ []) (hall : ∀ x ∈ l, x = c) :
    medianList l = c := by
  unfold medianList
  have hpos : 0 < l.length := List.length_pos.mpr hne
  have hidx : l.length / 2 < (l.mergeSort fun a b => decide (a ≤ b)).length := by
    rw [List.length_mergeSort]
    omega
  rw [List.getD_eq_getElem _ _ hidx]
  exact hall _ (List.mem_mergeSort.mp (List.getElem_mem hidx))

/-- The median filter leaves a constant frame unchanged. -/
theorem medianFilterM_const {m n : ℕ} (c : ℝ) (size : ℕ) (hs : 0 < size) :
    medianFilterM (fun _ _ => c : Matrix (Fin m) (Fin n) ℝ) size = fun _ _ => c := by
  funext i j
  unfold medianFilterM
  apply medianList_const
  · have hmem : c ∈ windowList (fun _ _ => c : Matrix (Fin m) (Fin n) ℝ) size i j := by
      unfold windowList
      refine List.mem_map.mpr ⟨(0, 0), ?_, rfl⟩
      exact List.mem_product.mpr ⟨List.mem_range.mpr hs, List.mem_range.mpr hs⟩
    exact List.ne_nil_of_mem hmem
  · intro x hx
    unfold windowList at hx
    rcases List.mem_map.mp hx with ⟨p, _, rfl⟩
    rfl

/-- Mapping over an ndarray maps its flattened entries. -/
theorem map_data_getD (f : ℝ → ℝ) (a : NDArray) (k : ℕ) (hk : k < a.data.length) :
    (NDArray.map f a).data.getD k 0 = f (a.data.getD k 0) := by
  unfold NDArray.map
  rw [List.getD_eq_getElem _ _ (by simpa using hk), List.getElem_map,
    List.getD_eq_getElem _ _ hk]

/-- Claim C1 counterexample: the round trip ifft (fft x) does not recover
every real frame x; on the 1 by 1 frame holding -1 it returns 1, because
ifft takes the magnitude of the complex result. -/
theorem roundtrip_negative_entry_not_recovered :
    ifft (fft (ofRealM negFrame)) ≠ negFrame := by
  intro h
  have h0 := congrFun (congrFun ((ifft_fft_abs negFrame).symm.trans h) 0) 0
  simp only [negFrame] at h0
  norm_num at h0

/-- Claim C1 (amended): for every 2-d real frame x the round trip
ifft (fft x) returns the entrywise absolute value of x exactly, so it
recovers x precisely when all entries of x are nonnegative; a frame with
a negative entry is replaced by its magnitude. -/
theorem ifft_fft_roundtrip {m n : ℕ} (x : Matrix (Fin m) (Fin n) ℝ) :
    ifft (fft (ofRealM x)) = (fun i j => |x i j|) ∧
    ((∀ i j, 0 ≤ x i j) → ifft (fft (ofRealM x)) = x) := by
  refine ⟨ifft_fft_abs x, fun hx => ?_⟩
  rw [ifft_fft_abs x]
  funext i j
  exact abs_of_nonneg (hx i j)

/-- Claim C1 witness: the round trip recovers the concrete nonnegative
2 by 2 frame M0 exactly. -/
theorem ifft_fft_roundtrip_witness :
    (∀ i j, 0 ≤ M0 i j) ∧ ifft (fft (ofRealM M0)) = M0 :=
  ⟨fun _ _ => by norm_num [M0],
    (ifft_fft_roundtrip M0).2 fun _ _ => by norm_num [M0]⟩

/-- Claim C2: frame_filter_highpass rejects any input that is not 2-d
with the shape TypeError, for every mode string (even an invalid one)
and every choice of externals, making no library call; and rejects any
2-d input whose mode is outside the four documented modes with the mode
TypeError. -/
theorem highpass_shape_first_and_mode_error (ext : Externals) (a : NDArray) (mode : String)
    (ms ks : ℕ) (fs : ℝ) :
    (a.shape.length ≠ 2 →
      frame_filter_highpass ext a mode ms ks fs = ([], Except.error shapeErr))
    ∧ (∀ {m n : ℕ} (M : Matrix (Fin m) (Fin n) ℝ),
        mode ≠ "kernel-conv" → mode ≠ "median-subt" → mode ≠ "gauss-subt" →
        mode ≠ "fourier-butter" →
        frame_filter_highpass ext (ofMatrix M) mode ms ks fs = ([], Except.error modeErr)) := by
  constructor
  · intro h
    obtain ⟨sh, d⟩ := a
    simp only at h
    unfold frame_filter_highpass
    rcases sh with _ | ⟨x, _ | ⟨y, _ | ⟨z, t⟩⟩⟩
    · rfl
    · rfl
    · simp at h
    · rfl
  · intro m n M h1 h2 h3 h4
    simp only [frame_filter_highpass, ofMatrix]
    rw [if_neg h1, if_neg h2, if_neg h3, if_neg h4]

/-- Claim C2 witness: the concrete 1-d array is rejected with the shape
TypeError in an (invalid) mode, and the 2-d frame M0 is rejected with
the mode TypeError under the unrecognized mode bogus. -/
theorem highpass_validation_witness :
    (arr1d.shape.length ≠ 2 ∧
      frame_filter_highpass trivExt arr1d ("fourier-butter") 5 5 5 = ([], Except.error shapeErr)) ∧
    (("bogus" : String) ≠ "kernel-conv" ∧
      frame_filter_highpass trivExt (ofMatrix M0) ("bogus") 5 5 5 = ([], Except.error modeErr)) :=
  ⟨⟨by decide,
      (highpass_shape_first_and_mode_error trivExt arr1d ("fourier-butter") 5 5 5).1 (by decide)⟩,
    ⟨by decide,
      (highpass_shape_first_and_mode_error trivExt (ofMatrix M0) ("bogus") 5 5 5).2 M0
        (by decide) (by decide) (by decide) (by decide)⟩⟩

/-- Claim C3 counterexample: on a concrete 2-d frame with the invalid
threshold mode bogus, wavelet_denoise performs the wavelet decomposition
(the wavedec2 call appears in the trace) before raising the threshold
ValueError, so the rejection does not happen before the numeric work. -/
theorem wavelet_decomposes_before_thrmode_check :
    (wavelet_denoise libUnit (ofMatrix M0) () 1 1 ("bogus")).1 = [LibCall.wavedec2] ∧
    (wavelet_denoise libUnit (ofMatrix M0) () 1 1 ("bogus")).2 = Except.error thrErr :=
  ⟨rfl, rfl⟩

/-- Claim C3 (amended): on a 2-d frame wavelet_denoise raises the
threshold ValueError exactly when thrmode is neither hard nor soft, and
that error is a value-domain error distinct in kind from the TypeErrors
used for shape and mode validation; however the rejection happens only
after the wavelet decomposition has been performed, not before. -/
theorem wavelet_denoise_value_error {C W : Type} (lib : WaveletLib C W) {m n : ℕ}
    (M : Matrix (Fin m) (Fin n) ℝ) (w : W) (t : ℝ) (lv : ℕ) (thrmode : String) :
    ((wavelet_denoise lib (ofMatrix M) w t lv thrmode).2 = Except.error thrErr ↔
      thrmode ≠ "hard" ∧ thrmode ≠ "soft")
    ∧ (thrmode ≠ "hard" → thrmode ≠ "soft" →
        (wavelet_denoise lib (ofMatrix M) w t lv thrmode).1 = [LibCall.wavedec2])
    ∧ thrErr.kind = PyErrKind.valueError ∧ shapeErr.kind = PyErrKind.typeError
    ∧ modeErr.kind = PyErrKind.typeError := by
  by_cases h1 : thrmode = "hard"
  · subst h1
    refine ⟨?_, ?_, rfl, rfl, rfl⟩
    · constructor
      · intro he
        have hok : (wavelet_denoise lib (ofMatrix M) w t lv ("hard")).2 =
            Except.ok (lib.waverec2 ((lib.wavedec2 (ofMatrix M) w lv).map fun x =>
              lib.hard x t) w) := rfl
        rw [hok] at he
        exact Except.noConfusion he
      · rintro ⟨ha, _⟩
        exact absurd rfl ha
    · intro ha _
      exact absurd rfl ha
  · by_cases h2 : thrmode = "soft"
    · subst h2
      refine ⟨?_, ?_, rfl, rfl, rfl⟩
      · constructor
        · intro he
          have hok : (wavelet_denoise lib (ofMatrix M) w t lv ("soft")).2 =
              Except.ok (lib.waverec2 ((lib.wavedec2 (ofMatrix M) w lv).map fun x =>
                lib.soft x t) w) := rfl
          rw [hok] at he
          exact Except.noConfusion he
        · rintro ⟨_, hb⟩
          exact absurd rfl hb
      · intro _ hb
        exact absurd rfl hb
    · have hred : wavelet_denoise lib (ofMatrix M) w t lv thrmode =
          (if thrmode = "hard" then
            ([LibCall.wavedec2, LibCall.thresholding, LibCall.waverec2],
              Except.ok (lib.waverec2 ((lib.wavedec2 (ofMatrix M) w lv).map fun x =>
                lib.hard x t) w))
          else if thrmode = "soft" then
            ([LibCall.wavedec2, LibCall.thresholding, LibCall.waverec2],
              Except.ok (lib.waverec2 ((lib.wavedec2 (ofMatrix M) w lv).map fun x =>
                lib.soft x t) w))
          else ([LibCall.wavedec2], Except.error thrErr)) := rfl
      rw [hred, if_neg h1, if_neg h2]
      exact ⟨by simp [h1, h2], fun _ _ => rfl, rfl, rfl, rfl⟩

/-- Claim C3 witness: at the concrete invalid threshold mode bogus the
denoiser returns the threshold ValueError with only the decomposition
call in its trace. -/
theorem wavelet_denoise_value_error_witness :
    (("bogus" : String) ≠ "hard" ∧ ("bogus" : String) ≠ "soft") ∧
    (wavelet_denoise libUnit (ofMatrix M0) () 1 1 ("bogus")).2 = Except.error thrErr ∧
    (wavelet_denoise libUnit (ofMatrix M0) () 1 1 ("bogus")).1 = [LibCall.wavedec2] :=
  ⟨by decide,
    (wavelet_denoise_value_error libUnit M0 () 1 1 ("bogus")).1.mpr ⟨by decide, by decide⟩,
    (wavelet_denoise_value_error libUnit M0 () 1 1 ("bogus")).2.1 (by decide) (by decide)⟩

/-- Claim C4: on every 2-d frame, fourier-butter mode multiplies the
centered spectrum fft of the frame by the Butterworth high-pass transfer
function 1 - 1 / (1 + (radius / f) ^ (2 * n)) with the fixed constants
f = 0.5, pxd = 2 and n = 100, where radius is the Euclidean distance
from the center of the frequency grid linspace(-0.5, 0.5, axis) * axis / pxd,
and then inverts back to the spatial domain with ifft. -/
theorem highpass_fourier_butter (ext : Externals) {m n : ℕ} (M : Matrix (Fin m) (Fin n) ℝ)
    (ms ks : ℕ) (fs : ℝ) :
    frame_filter_highpass ext (ofMatrix M) ("fourier-butter") ms ks fs =
      ([LibCall.fft, LibCall.ifft], Except.ok (ofMatrix (ifft fun i j =>
        fft (ofRealM M) i j * Complex.ofReal (1 - 1 / (1 +
          (Real.sqrt (((-0.5 + (j.val : ℝ) / ((n : ℝ) - 1)) * n / 2) ^ 2 +
              ((-0.5 + (i.val : ℝ) / ((m : ℝ) - 1)) * m / 2) ^ 2) / 0.5) ^ (2 * 100)))))) := by
  trans ([LibCall.fft, LibCall.ifft], Except.ok (ofMatrix (ifft fun i j =>
    fft (ofRealM (toMat m n (ofMatrix M))) i j * Complex.ofReal (1 - 1 / (1 +
      (Real.sqrt (((-0.5 + (j.val : ℝ) / ((n : ℝ) - 1)) * n / 2) ^ 2 +
          ((-0.5 + (i.val : ℝ) / ((m : ℝ) - 1)) * m / 2) ^ 2) / 0.5) ^ (2 * 100))))))
  · rfl
  · rw [toMat_ofMatrix]

/-- Claim C5: on every 2-d frame, median-subt mode returns exactly the
frame minus its median-filtered version (square neighborhood of the
given size, nearest boundary handling); in particular on a 10 by 10
constant frame with median size 3 the result is the all-zero frame. -/
theorem highpass_median_subt (ext : Externals) {m n : ℕ} (M : Matrix (Fin m) (Fin n) ℝ)
    (ms ks : ℕ) (fs : ℝ) :
    frame_filter_highpass ext (ofMatrix M) ("median-subt") ms ks fs =
      ([LibCall.median_filter], Except.ok (ofMatrix (M - medianFilterM M ms)))
    ∧ ∀ c : ℝ, frame_filter_highpass ext (ofMatrix (fun _ _ => c : Matrix (Fin 10) (Fin 10) ℝ))
        ("median-subt") 3 ks fs =
        ([LibCall.median_filter],
          Except.ok (ofMatrix (fun _ _ => (0 : ℝ) : Matrix (Fin 10) (Fin 10) ℝ))) := by
  have hgen : ∀ {m1 n1 : ℕ} (M1 : Matrix (Fin m1) (Fin n1) ℝ) (ms1 : ℕ),
      frame_filter_highpass ext (ofMatrix M1) ("median-subt") ms1 ks fs =
        ([LibCall.median_filter], Except.ok (ofMatrix (M1 - medianFilterM M1 ms1))) := by
    intro m1 n1 M1 ms1
    trans ([LibCall.median_filter],
      Except.ok (ofMatrix (toMat m1 n1 (ofMatrix M1) - medianFilterM (toMat m1 n1 (ofMatrix M1)) ms1)))
    · rfl
    · rw [toMat_ofMatrix]
  refine ⟨hgen M ms, fun c => ?_⟩
  rw [hgen (fun _ _ => c : Matrix (Fin 10) (Fin 10) ℝ) 3, medianFilterM_const c 3 (by norm_num)]
  have hz : (fun _ _ => c : Matrix (Fin 10) (Fin 10) ℝ) - (fun _ _ => c) = (fun _ _ => (0 : ℝ)) := by
    funext i j
    exact sub_self c
  rw [hz]

/-- Claim C9: on every 2-d frame, kernel-conv mode with a kernel size
other than 3 or 5 yields neither a filtered result nor the
unrecognized-mode error: the kernel variable is never assigned, so the
call fails with the unbound-local error, whose kind is not even a
TypeError. -/
theorem highpass_kernel_conv_unbound (ext : Externals) {m n : ℕ} (M : Matrix (Fin m) (Fin n) ℝ)
    (ms ks : ℕ) (fs : ℝ) (h3 : ks ≠ 3) (h5 : ks ≠ 5) :
    frame_filter_highpass ext (ofMatrix M) ("kernel-conv") ms ks fs =
      ([], Except.error unboundLocalErr)
    ∧ unboundLocalErr ≠ modeErr ∧ unboundLocalErr.kind ≠ PyErrKind.typeError := by
  refine ⟨?_, by decide, by decide⟩
  trans (if ks = 3 then ([LibCall.convolve_fft], Except.ok (ext.convolve_fft (ofMatrix M) kernel3))
    else if ks = 5 then ([LibCall.convolve_fft], Except.ok (ext.convolve_fft (ofMatrix M) kernel5))
    else ([], Except.error unboundLocalErr))
  · rfl
  · rw [if_neg h3, if_neg h5]

/-- Claim C9 witness: kernel size 4 on the concrete frame M0 hits the
unbound-local failure. -/
theorem highpass_kernel_conv_unbound_witness :
    ((4 : ℕ) ≠ 3 ∧ (4 : ℕ) ≠ 5) ∧
    (frame_filter_highpass trivExt (ofMatrix M0) ("kernel-conv") 5 4 5 =
        ([], Except.error unboundLocalErr)
      ∧ unboundLocalErr ≠ modeErr ∧ unboundLocalErr.kind ≠ PyErrKind.typeError) :=
  ⟨by decide, highpass_kernel_conv_unbound trivExt M0 5 4 5 (by decide) (by decide)⟩

/-- Claim C6: for every valid size, gaussian_kernel builds the grid of
values exp (-(x^2 / size + y^2 / size_y)) on the integer grid from -size
to size by -size_y to size_y (encoded by gaussMat), divides first by the
flux returned by the external aperture photometry on a circular aperture
of radius size / 2 centered on the kernel, then peak-normalizes, so as
long as the measured flux is positive (the photometry contract on a
positive array) the returned kernel has maximum value exactly 1. -/
theorem gaussian_kernel_peak_one (ap : NDArray → ℝ × ℝ → ℝ → ℝ) (size : ℕ) (size_y : Option ℕ)
    (_hs : 1 ≤ size)
    (hap : 0 < ap (ofMatrix (gaussMat size (resolveSy size size_y)))
        (frame_center (ofMatrix (gaussMat size (resolveSy size size_y)))) ((size : ℝ) / 2)) :
    listMax (gaussian_kernel ap size size_y).data = 1 ∧
    (gaussian_kernel ap size size_y).shape = [2 * size + 1, 2 * resolveSy size size_y + 1] := by
  refine ⟨?_, rfl⟩
  set sy := resolveSy size size_y with hsy
  set g := ofMatrix (gaussMat size sy) with hg
  set flux := ap g (frame_center g) ((size : ℝ) / 2) with hflux
  have hdata : (gaussian_kernel ap size size_y).data =
      (g.data.map fun v => v / flux).map fun v =>
        v / listMax (g.data.map fun v => v / flux) := rfl
  rw [hdata]
  set L1 := g.data.map fun v => v / flux with hL1
  have hg0 : ∀ x ∈ g.data, 0 < x := by
    intro x hx
    rw [hg] at hx
    simp only [ofMatrix] at hx
    rcases List.mem_map.mp hx with ⟨t, _, rfl⟩
    exact Real.exp_pos _
  have hgne : g.data ≠ [] := by
    have hlen : g.data.length = (2 * size + 1) * (2 * sy + 1) := by
      rw [hg]
      simp [ofMatrix]
    intro hnil
    rw [hnil] at hlen
    simp at hlen
  have hL1pos : ∀ x ∈ L1, 0 < x := by
    intro x hx
    rcases List.mem_map.mp hx with ⟨v, hv, rfl⟩
    exact div_pos (hg0 v hv) hap
  have hL1ne : L1 ≠ [] := by
    intro hnil
    exact hgne (List.map_eq_nil_iff.mp hnil)
  have hM1 : 0 < listMax L1 := hL1pos _ (listMax_mem hL1ne)
  apply le_antisymm
  · apply listMax_le
    · intro hnil
      exact hL1ne (List.map_eq_nil_iff.mp hnil)
    · intro x hx
      rcases List.mem_map.mp hx with ⟨v, hv, rfl⟩
      exact div_le_one_of_le₀ (le_listMax hv) hM1.le
  · apply le_listMax
    refine List.mem_map.mpr ⟨listMax L1, listMax_mem hL1ne, ?_⟩
    exact div_self hM1.ne'

/-- Claim C6 witness: with unit-flux photometry and size 1 the generated
kernel has maximum exactly 1 and the expected 3 by 3 shape. -/
theorem gaussian_kernel_peak_one_witness :
    ((1 : ℕ) ≤ 1 ∧ (0 : ℝ) < 1) ∧
    listMax (gaussian_kernel apOne 1 none).data = 1 ∧
    (gaussian_kernel apOne 1 none).shape = [2 * 1 + 1, 2 * resolveSy 1 none + 1] :=
  ⟨⟨le_refl 1, one_pos⟩, gaussian_kernel_peak_one apOne 1 none (le_refl 1) one_pos⟩

/-- Claim C10: the source tests size_y for truthiness rather than
against None, so a zero size_y behaves exactly like an absent size_y:
the kernel is built with size_y replaced by size, giving the full square
grid rather than a degenerate zero-extent one. -/
theorem gaussian_kernel_size_y_zero_falsy (ap : NDArray → ℝ × ℝ → ℝ → ℝ) (size : ℕ) :
    gaussian_kernel ap size (some 0) = gaussian_kernel ap size none ∧
    (gaussian_kernel ap size (some 0)).shape = [2 * size + 1, 2 * size + 1] :=
  ⟨rfl, rfl⟩

/-- Claim C7: on every 2-d frame, conv mode of frame_filter_gaussian2d
calls the external separable Gaussian filter with standard deviation
size_fwhm times the FWHM-to-sigma factor (which lies within 1e-5 of
0.42466), derivative order zero and nearest boundary extension; any mode
other than conv and convfft raises the unrecognized-mode TypeError. -/
theorem gaussian2d_conv_and_modes (ext : Externals) {m n : ℕ} (M : Matrix (Fin m) (Fin n) ℝ)
    (size_fwhm : ℝ) :
    frame_filter_gaussian2d ext (ofMatrix M) size_fwhm ("conv") =
      ([LibCall.gaussian_filter],
        Except.ok (ext.gaussian_filter (ofMatrix M) (size_fwhm * gaussian_fwhm_to_sigma) 0
          ("nearest")))
    ∧ (∀ mode : String, mode ≠ "conv" → mode ≠ "convfft" →
        frame_filter_gaussian2d ext (ofMatrix M) size_fwhm mode = ([], Except.error modeErr))
    ∧ |gaussian_fwhm_to_sigma - 0.42466| < 0.00001 := by
  refine ⟨rfl, ?_, ?_⟩
  · intro mode h1 h2
    simp only [frame_filter_gaussian2d, ofMatrix]
    rw [if_neg h1, if_neg h2]
  · have hlog1 : (0.6931471803 : ℝ) < Real.log 2 := Real.log_two_gt_d9
    have hlog2 : Real.log 2 < 0.6931471808 := Real.log_two_lt_d9
    have hs1 : (1.17741 : ℝ) < Real.sqrt (2 * Real.log 2) := by
      have hsq : (1.17741 : ℝ) ^ 2 < 2 * Real.log 2 := by nlinarith [hlog1]
      exact (Real.lt_sqrt (by norm_num)).mpr hsq
    have hs2 : Real.sqrt (2 * Real.log 2) < 1.177411 := by
      have hsq : 2 * Real.log 2 < (1.177411 : ℝ) ^ 2 := by nlinarith [hlog2]
      exact (Real.sqrt_lt' (by norm_num)).mpr hsq
    have hsp : (0 : ℝ) < Real.sqrt (2 * Real.log 2) := lt_trans (by norm_num) hs1
    have hlt : gaussian_fwhm_to_sigma < 0.42467 := by
      unfold gaussian_fwhm_to_sigma
      rw [div_lt_iff₀ (by linarith)]
      nlinarith [hs1]
    have hgt : (0.42465 : ℝ) < gaussian_fwhm_to_sigma := by
      unfold gaussian_fwhm_to_sigma
      rw [lt_div_iff₀ (by linarith)]
      nlinarith [hs2]
    rw [abs_lt]
    constructor <;> linarith

/-- Claim C7 witness: the unrecognized mode bogus on the concrete frame
M0 raises the mode TypeError. -/
theorem gaussian2d_conv_witness :
    (("bogus" : String) ≠ "conv" ∧ ("bogus" : String) ≠ "convfft") ∧
    frame_filter_gaussian2d trivExt (ofMatrix M0) 5 ("bogus") = ([], Except.error modeErr) :=
  ⟨by decide, (gaussian2d_conv_and_modes trivExt M0 5).2.1 ("bogus") (by decide) (by decide)⟩
